import Mathlib

/-!
Verification of the record-comparison tooling (detailed_comparison.py,
shift_analysis.py, field_accuracy_analysis.py).

Python strings are modelled as `List Char`; byte buffers as `List Nat`.
Each definition is a direct translation of the corresponding Python code.
-/

/-- Fields of a delimited record are plain strings, modelled as char lists. -/
abbrev FieldVal := List Char

/-- Model of Python `record.split(d)` for a single-character separator `d`:
splits on every occurrence of `d`, keeping empty pieces, always returning
at least one piece.  (Source: `record.split('|')` in `parse_record`,
`detailed_comparison.py` line 22, and `shift_analysis.py` lines 15-16.) -/
def splitOnChar (d : Char) : List Char → List FieldVal
  | [] => [[]]
  | c :: cs =>
    if c = d then [] :: splitOnChar d cs
    else
      match splitOnChar d cs with
      | [] => [[c]]
      | f :: fs => (c :: f) :: fs

/-- Joining a field list with the delimiter, the inverse direction of
`splitOnChar` (spec-side operation used to state the round-trip law). -/
def joinWith (d : Char) : List FieldVal → List Char
  | [] => []
  | [f] => f
  | f :: fs => f ++ d :: joinWith d fs

theorem splitOnChar_length (d : Char) (s : List Char) :
    (splitOnChar d s).length = s.count d + 1 := by
  induction s with
  | nil => simp [splitOnChar]
  | cons c cs ih =>
    by_cases h : c = d
    · simp [splitOnChar, h, List.count_cons, ih]
    · have hne : (splitOnChar d cs) ≠ [] := by
        intro hnil
        simp [hnil] at ih
      obtain ⟨f, fs, hfs⟩ := List.exists_cons_of_ne_nil hne
      simp [splitOnChar, h, hfs, List.count_cons]
      have := ih
      rw [hfs] at this
      simp at this
      omega

theorem splitOnChar_ne_nil (d : Char) (s : List Char) :
    splitOnChar d s ≠ [] := by
  intro h
  have := splitOnChar_length d s
  simp [h] at this

theorem splitOnChar_not_mem (d : Char) (s : List Char) :
    ∀ f ∈ splitOnChar d s, d ∉ f := by
  induction s with
  | nil => simp [splitOnChar]
  | cons c cs ih =>
    by_cases h : c = d
    · intro f hf
      simp [splitOnChar, h] at hf
      rcases hf with hf | hf
      · simp [hf]
      · exact ih f hf
    · intro f hf
      have hne : (splitOnChar d cs) ≠ [] := splitOnChar_ne_nil d cs
      obtain ⟨g, gs, hgs⟩ := List.exists_cons_of_ne_nil hne
      rw [splitOnChar] at hf
      simp only [if_neg h, hgs, List.mem_cons] at hf
      rcases hf with hf | hf
      · subst hf
        intro hmem
        rcases List.mem_cons.mp hmem with hc | hg
        · exact h hc.symm
        · exact ih g (hgs ▸ List.mem_cons_self g gs) hg
      · exact ih f (hgs ▸ List.mem_cons_of_mem g hf)

theorem joinWith_splitOnChar (d : Char) (s : List Char) :
    joinWith d (splitOnChar d s) = s := by
  induction s with
  | nil => simp [splitOnChar, joinWith]
  | cons c cs ih =>
    by_cases h : c = d
    · have hne : (splitOnChar d cs) ≠ [] := splitOnChar_ne_nil d cs
      obtain ⟨f, fs, hfs⟩ := List.exists_cons_of_ne_nil hne
      rw [splitOnChar]
      simp only [if_pos h, hfs]
      rw [hfs] at ih
      subst h
      simp [joinWith, ih]
    · have hne : (splitOnChar d cs) ≠ [] := splitOnChar_ne_nil d cs
      obtain ⟨f, fs, hfs⟩ := List.exists_cons_of_ne_nil hne
      rw [splitOnChar]
      simp only [if_neg h, hfs]
      rw [hfs] at ih
      cases fs with
      | nil => simpa [joinWith] using congrArg (c :: ·) ih
      | cons g gs =>
        simp only [joinWith] at ih ⊢
        rw [List.cons_append, ih]

/-- Model of `parse_record` (`detailed_comparison.py` lines 20-26): split the
record on the pipe, classify by the third field when there are at least
three fields, and by the literal string UNKNOWN otherwise. -/
def parse_record (record : List Char) : FieldVal × List FieldVal :=
  let fields := splitOnChar '|' record
  if h : 3 ≤ fields.length then
    (fields.get ⟨2, by omega⟩, fields)
  else
    ("UNKNOWN".toList, fields)

/-- One entry of the `mismatches` list built by `compare_fields`
(`detailed_comparison.py` lines 47-51). -/
structure Mismatch where
  field_index : Nat
  our_value : FieldVal
  expected_value : FieldVal
deriving DecidableEq, Repr

/-- One entry of the `missing_fields` list built by `compare_fields`
(`detailed_comparison.py` lines 56-59). -/
structure MissingField where
  field_index : Nat
  expected_value : FieldVal
deriving DecidableEq, Repr

/-- One entry of the `extra_fields` list built by `compare_fields`
(`detailed_comparison.py` lines 64-67). -/
structure ExtraField where
  field_index : Nat
  our_value : FieldVal
deriving DecidableEq, Repr

/-- Result dictionary of `compare_fields` (`detailed_comparison.py`
lines 32-40). -/
structure Comparison where
  record_type : FieldVal
  our_field_count : Nat
  expected_field_count : Nat
  match_count : Nat
  mismatches : List Mismatch
  missing_fields : List MissingField
  extra_fields : List ExtraField
deriving DecidableEq, Repr

/-- Common-prefix loop of `compare_fields` (`detailed_comparison.py`
lines 43-51): walk positions `pos, pos+1, ...` of both lists in step,
counting equal values and recording a `Mismatch` (with 1-based index)
for each unequal pair.  Mismatches come out in increasing position
order, exactly as the Python loop appends them. -/
def compareCommon (pos : Nat) : List FieldVal → List FieldVal → Nat × List Mismatch
  | a :: xs, b :: ys =>
    let r := compareCommon (pos + 1) xs ys
    if a = b then (r.1 + 1, r.2)
    else (r.1, ⟨pos + 1, a, b⟩ :: r.2)
  | _, _ => (0, [])

/-- Model of `compare_fields` (`detailed_comparison.py` lines 28-69).
The `missing_fields` / `extra_fields` loops `for i in range(len(A), len(B))`
are rendered with `List.range'` (Python `range(a, b)` is
`List.range' a (b - a)` under truncated subtraction). -/
def compare_fields (our_fields expected_fields : List FieldVal)
    (record_type : FieldVal) : Comparison :=
  let common := compareCommon 0 our_fields expected_fields
  { record_type := record_type
    our_field_count := our_fields.length
    expected_field_count := expected_fields.length
    match_count := common.1
    mismatches := common.2
    missing_fields :=
      (List.range' our_fields.length (expected_fields.length - our_fields.length)).map
        (fun i => ⟨i + 1, expected_fields.getD i []⟩)
    extra_fields :=
      (List.range' expected_fields.length (our_fields.length - expected_fields.length)).map
        (fun i => ⟨i + 1, our_fields.getD i []⟩) }

theorem compareCommon_mem_iff (pos : Nat) (xs ys : List FieldVal) (m : Mismatch) :
    m ∈ (compareCommon pos xs ys).2 ↔
      ∃ i, ∃ (hx : i < xs.length) (hy : i < ys.length),
        xs.get ⟨i, hx⟩ ≠ ys.get ⟨i, hy⟩ ∧
        m = ⟨pos + i + 1, xs.get ⟨i, hx⟩, ys.get ⟨i, hy⟩⟩ := by
  induction xs generalizing pos ys with
  | nil => simp [compareCommon]
  | cons a xs ih =>
    cases ys with
    | nil => simp [compareCommon]
    | cons b ys =>
      have step : ∀ q,
          (∃ i, ∃ (hx : i < xs.length) (hy : i < ys.length),
            xs.get ⟨i, hx⟩ ≠ ys.get ⟨i, hy⟩ ∧
            m = ⟨q + 1 + i + 1, xs.get ⟨i, hx⟩, ys.get ⟨i, hy⟩⟩) ↔
          (∃ j, ∃ (hx : j < xs.length + 1) (hy : j < ys.length + 1), 0 < j ∧
            (a :: xs).get ⟨j, by simpa using hx⟩ ≠ (b :: ys).get ⟨j, by simpa using hy⟩ ∧
            m = ⟨q + j + 1, (a :: xs).get ⟨j, by simpa using hx⟩,
                  (b :: ys).get ⟨j, by simpa using hy⟩⟩) := by
        intro q
        constructor
        · rintro ⟨i, hx, hy, hne, hm⟩
          refine ⟨i + 1, by omega, by omega, by omega, by simpa using hne, ?_⟩
          rw [hm]
          have harith : q + 1 + i + 1 = q + (i + 1) + 1 := by omega
          simp [harith]
        · rintro ⟨j, hx, hy, hpos, hne, hm⟩
          obtain ⟨i, rfl⟩ : ∃ i, j = i + 1 := ⟨j - 1, by omega⟩
          refine ⟨i, by omega, by omega, by simpa using hne, ?_⟩
          rw [hm]
          have harith : q + (i + 1) + 1 = q + 1 + i + 1 := by omega
          simp [harith]
      by_cases h : a = b
      · simp only [compareCommon, if_pos h]
        rw [ih (pos + 1) ys, step pos]
        constructor
        · rintro ⟨j, hx, hy, hpos, hrest⟩
          exact ⟨j, hx, hy, hrest⟩
        · rintro ⟨j, hx, hy, hne, hm⟩
          refine ⟨j, hx, hy, ?_, hne, hm⟩
          rcases Nat.eq_zero_or_pos j with rfl | hj
          · exact absurd (by simpa using h) (by simpa using hne)
          · exact hj
      · simp only [compareCommon, if_neg h, List.mem_cons]
        rw [ih (pos + 1) ys, step pos]
        constructor
        · rintro (rfl | ⟨j, hx, hy, hpos, hne, hm⟩)
          · exact ⟨0, by simp, by simp, by simpa using h, by simp⟩
          · exact ⟨j, hx, hy, hne, hm⟩
        · rintro ⟨j, hx, hy, hne, hm⟩
          rcases Nat.eq_zero_or_pos j with rfl | hj
          · left
            simpa using hm
          · right
            exact ⟨j, hx, hy, hj, hne, hm⟩

theorem compareCommon_swap (pos : Nat) (xs ys : List FieldVal) :
    (compareCommon pos ys xs).1 = (compareCommon pos xs ys).1 ∧
    (compareCommon pos ys xs).2
      = (compareCommon pos xs ys).2.map
          (fun m => ⟨m.field_index, m.expected_value, m.our_value⟩) := by
  induction xs generalizing pos ys with
  | nil => cases ys <;> simp [compareCommon]
  | cons a xs ih =>
    cases ys with
    | nil => simp [compareCommon]
    | cons b ys =>
      rcases ih (pos + 1) ys with ⟨ih1, ih2⟩
      by_cases h : a = b
      · simp [compareCommon, h, ih1, ih2]
      · have h2 : ¬b = a := fun hh => h hh.symm
        simp [compareCommon, h, h2, ih1, ih2]

theorem compareCommon_count (pos : Nat) (xs ys : List FieldVal) :
    (compareCommon pos xs ys).1 + (compareCommon pos xs ys).2.length
      = min xs.length ys.length := by
  induction xs generalizing pos ys with
  | nil => cases ys <;> simp [compareCommon]
  | cons a xs ih =>
    cases ys with
    | nil => simp [compareCommon]
    | cons b ys =>
      by_cases h : a = b <;>
        simp [compareCommon, h, Nat.succ_min_succ] <;>
        rw [← ih (pos + 1) ys] <;> omega

theorem compare_fields_missing_length (A B : List FieldVal) (t : FieldVal) :
    (compare_fields A B t).missing_fields.length = B.length - A.length := by
  simp [compare_fields]

theorem compare_fields_extra_length (A B : List FieldVal) (t : FieldVal) :
    (compare_fields A B t).extra_fields.length = A.length - B.length := by
  simp [compare_fields]

theorem compare_fields_missing_get (A B : List FieldVal) (t : FieldVal)
    (k : Nat) (hk : k < (compare_fields A B t).missing_fields.length) :
    ∃ (h2 : A.length + k < B.length),
      (compare_fields A B t).missing_fields.get ⟨k, hk⟩
        = ⟨A.length + k + 1, B.get ⟨A.length + k, h2⟩⟩ := by
  have hlen := compare_fields_missing_length A B t
  have hkn : k < B.length - A.length := by omega
  have h2 : A.length + k < B.length := by omega
  refine ⟨h2, ?_⟩
  have hk2 : k < (List.range' A.length (B.length - A.length)).length := by
    simpa using hkn
  have hget : (List.range' A.length (B.length - A.length))[k] = A.length + k :=
    List.getElem_range'_1 k hk2
  simp only [compare_fields, List.get_eq_getElem, List.getElem_map, hget]
  rw [List.getD_eq_getElem B [] h2]

theorem compare_fields_extra_get (A B : List FieldVal) (t : FieldVal)
    (k : Nat) (hk : k < (compare_fields A B t).extra_fields.length) :
    ∃ (h2 : B.length + k < A.length),
      (compare_fields A B t).extra_fields.get ⟨k, hk⟩
        = ⟨B.length + k + 1, A.get ⟨B.length + k, h2⟩⟩ := by
  have hlen := compare_fields_extra_length A B t
  have hkn : k < A.length - B.length := by omega
  have h2 : B.length + k < A.length := by omega
  refine ⟨h2, ?_⟩
  have hk2 : k < (List.range' B.length (A.length - B.length)).length := by
    simpa using hkn
  have hget : (List.range' B.length (A.length - B.length))[k] = B.length + k :=
    List.getElem_range'_1 k hk2
  simp only [compare_fields, List.get_eq_getElem, List.getElem_map, hget]
  rw [List.getD_eq_getElem A [] h2]

/-- C1: for every pair of field sequences, `compare_fields` satisfies
`match_count + len(mismatches) = min(len(A), len(B))`; every compared
position either matches or yields a `Mismatch` at 1-based position `i+1`
carrying the actual value `A[i]` and the expected value `B[i]`, and every
recorded `Mismatch` arises from such a differing position. -/
theorem compare_fields_match_mismatch_partition
    (A B : List FieldVal) (t : FieldVal) :
    (compare_fields A B t).match_count + (compare_fields A B t).mismatches.length
        = min A.length B.length ∧
    (∀ i (hA : i < A.length) (hB : i < B.length),
        A.get ⟨i, hA⟩ = B.get ⟨i, hB⟩ ∨
        (⟨i + 1, A.get ⟨i, hA⟩, B.get ⟨i, hB⟩⟩ : Mismatch)
          ∈ (compare_fields A B t).mismatches) ∧
    (∀ m ∈ (compare_fields A B t).mismatches,
        ∃ i, ∃ (hA : i < A.length) (hB : i < B.length),
          A.get ⟨i, hA⟩ ≠ B.get ⟨i, hB⟩ ∧
          m = ⟨i + 1, A.get ⟨i, hA⟩, B.get ⟨i, hB⟩⟩) := by
  refine ⟨?_, ?_, ?_⟩
  · simpa [compare_fields] using compareCommon_count 0 A B
  · intro i hA hB
    by_cases h : A.get ⟨i, hA⟩ = B.get ⟨i, hB⟩
    · exact Or.inl h
    · refine Or.inr ?_
      have : (⟨i + 1, A.get ⟨i, hA⟩, B.get ⟨i, hB⟩⟩ : Mismatch)
          ∈ (compareCommon 0 A B).2 := by
        rw [compareCommon_mem_iff]
        exact ⟨i, hA, hB, h, by simp⟩
      simpa [compare_fields] using this
  · intro m hm
    have hm2 : m ∈ (compareCommon 0 A B).2 := by
      simpa [compare_fields] using hm
    rw [compareCommon_mem_iff] at hm2
    obtain ⟨i, hA, hB, hne, hmeq⟩ := hm2
    exact ⟨i, hA, hB, hne, by simpa using hmeq⟩

/-- C1 witness: the spec scenario `A = ["1","2","3"]`, `B = ["1","X","3"]`
gives 2 matches plus 1 mismatch (total `min 3 3`), with the mismatch at
position 2 carrying actual `"2"` and expected `"X"`. -/
theorem compare_fields_match_mismatch_partition_witness :
    (compare_fields [['1'], ['2'], ['3']] [['1'], ['X'], ['3']] ['P']).match_count
        + (compare_fields [['1'], ['2'], ['3']] [['1'], ['X'], ['3']] ['P']).mismatches.length
        = 3 ∧
    (⟨2, ['2'], ['X']⟩ : Mismatch)
      ∈ (compare_fields [['1'], ['2'], ['3']] [['1'], ['X'], ['3']] ['P']).mismatches := by
  have h := compare_fields_match_mismatch_partition
      [['1'], ['2'], ['3']] [['1'], ['X'], ['3']] ['P']
  refine ⟨by simpa using h.1, ?_⟩
  have h2 := h.2.1 1 (by decide) (by decide)
  rcases h2 with heq | hmem
  · exact absurd heq (by decide)
  · simpa using hmem

/-- C2: `compare_fields` produces exactly `max 0 (len B - len A)` missing
entries — the `k`-th one at 1-based position `len A + k + 1` carrying the
expected value `B[len A + k]` — and exactly `max 0 (len A - len B)` extra
entries, the `k`-th one at position `len B + k + 1` carrying the actual
value `A[len B + k]`. -/
theorem compare_fields_missing_extra_spec (A B : List FieldVal) (t : FieldVal) :
    ((compare_fields A B t).missing_fields.length : Int)
        = max 0 ((B.length : Int) - (A.length : Int)) ∧
    ((compare_fields A B t).extra_fields.length : Int)
        = max 0 ((A.length : Int) - (B.length : Int)) ∧
    (∀ k (hk : k < (compare_fields A B t).missing_fields.length),
        ∃ (h2 : A.length + k < B.length),
          (compare_fields A B t).missing_fields.get ⟨k, hk⟩
            = ⟨A.length + k + 1, B.get ⟨A.length + k, h2⟩⟩) ∧
    (∀ k (hk : k < (compare_fields A B t).extra_fields.length),
        ∃ (h2 : B.length + k < A.length),
          (compare_fields A B t).extra_fields.get ⟨k, hk⟩
            = ⟨B.length + k + 1, A.get ⟨B.length + k, h2⟩⟩) := by
  refine ⟨?_, ?_, compare_fields_missing_get A B t, compare_fields_extra_get A B t⟩
  · have := compare_fields_missing_length A B t
    omega
  · have := compare_fields_extra_length A B t
    omega

/-- C2 witness: the spec scenario `A = ["1","2"]`, `B = ["1","2","3"]` gives
exactly one missing entry, at position 3 with expected value `"3"`, and no
extra entries. -/
theorem compare_fields_missing_extra_spec_witness :
    ((compare_fields [['1'], ['2']] [['1'], ['2'], ['3']] ['P']).missing_fields.length : Int)
        = 1 ∧
    ((compare_fields [['1'], ['2']] [['1'], ['2'], ['3']] ['P']).extra_fields.length : Int)
        = 0 ∧
    (compare_fields [['1'], ['2']] [['1'], ['2'], ['3']] ['P']).missing_fields.get
        ⟨0, by decide⟩ = ⟨3, ['3']⟩ := by
  have h := compare_fields_missing_extra_spec [['1'], ['2']] [['1'], ['2'], ['3']] ['P']
  refine ⟨by simpa using h.1, by simpa using h.2.1, ?_⟩
  obtain ⟨h2, heq⟩ := h.2.2.1 0 (by decide)
  exact heq.trans (by rfl)

/-- C8: mismatch positions are symmetric in the two arguments, and swapping
the arguments of `compare_fields` swaps the actual/expected values inside
each `Mismatch` while keeping positions and order. -/
theorem compare_fields_mismatch_symmetry (A B : List FieldVal) (t u : FieldVal) :
    (compare_fields B A u).mismatches.map (fun m => m.field_index)
        = (compare_fields A B t).mismatches.map (fun m => m.field_index) ∧
    (compare_fields B A u).mismatches
        = (compare_fields A B t).mismatches.map
            (fun m => ⟨m.field_index, m.expected_value, m.our_value⟩) := by
  have h := compareCommon_swap 0 A B
  constructor
  · simp only [compare_fields, h.2, List.map_map]
    rfl
  · simpa [compare_fields] using h.2

/-- C3: segmentation is total (a total Lean function by construction),
splits on every occurrence of the delimiter (one more field than delimiter
occurrences, no delimiter left inside any field), and keeps empty fields:
segmenting `"a||b"` on the pipe yields `["a", "", "b"]`. -/
theorem splitOnChar_total_spec :
    (∀ (d : Char) (s : List Char),
        (splitOnChar d s).length = s.count d + 1 ∧
        ∀ f ∈ splitOnChar d s, d ∉ f) ∧
    splitOnChar '|' "a||b".toList = [['a'], [], ['b']] := by
  refine ⟨fun d s => ⟨splitOnChar_length d s, splitOnChar_not_mem d s⟩, by decide⟩

/-- C3 witness: instantiating the specification at the record `"a||b"`. -/
theorem splitOnChar_total_spec_witness :
    (splitOnChar '|' "a||b".toList).length = "a||b".toList.count '|' + 1 ∧
    '|' ∉ (['a'] : FieldVal) := by
  have h := splitOnChar_total_spec
  exact ⟨(h.1 '|' "a||b".toList).1,
    (h.1 '|' "a||b".toList).2 ['a'] (by decide)⟩

/-- C10: segmentation is lossless — joining the fields with the delimiter
reproduces the input exactly, and segmentation always returns at least one
field, even on the empty string. -/
theorem splitOnChar_roundtrip (d : Char) (s : List Char) :
    joinWith d (splitOnChar d s) = s ∧ 1 ≤ (splitOnChar d s).length := by
  refine ⟨joinWith_splitOnChar d s, ?_⟩
  have := splitOnChar_length d s
  omega

/-- C9 counterexample: the record `"||UNKNOWN"` segments into three fields,
yet `parse_record` classifies it as `UNKNOWN` (its third field is the
literal string), refuting the claimed "UNKNOWN exactly when fewer than
3 fields". -/
theorem parse_record_unknown_counterexample :
    (parse_record "||UNKNOWN".toList).1 = "UNKNOWN".toList ∧
    ¬ ((splitOnChar '|' "||UNKNOWN".toList).length < 3) := by
  decide

/-- C9 (amended): parsing never fails and returns the full field sequence
unchanged; the classification is `UNKNOWN` whenever the record has fewer
than 3 fields, and is the third field otherwise (a value that may itself
be the string `UNKNOWN`); comparison proceeds on any field counts,
representing absent positions as missing/extra entries. -/
theorem parse_record_degraded_spec :
    (∀ record : List Char,
        (parse_record record).2 = splitOnChar '|' record ∧
        ((splitOnChar '|' record).length < 3 →
          (parse_record record).1 = "UNKNOWN".toList) ∧
        (∀ h : 3 ≤ (splitOnChar '|' record).length,
          (parse_record record).1 = (splitOnChar '|' record).get ⟨2, by omega⟩)) ∧
    (∀ (A B : List FieldVal) (t : FieldVal),
        (compare_fields A B t).missing_fields.length = B.length - A.length ∧
        (compare_fields A B t).extra_fields.length = A.length - B.length) := by
  constructor
  · intro record
    refine ⟨?_, ?_, ?_⟩
    · by_cases h : 3 ≤ (splitOnChar '|' record).length
      · simp [parse_record, h]
      · simp [parse_record, h]
    · intro h
      have h2 : ¬ 3 ≤ (splitOnChar '|' record).length := by omega
      simp [parse_record, h2]
    · intro h
      simp [parse_record, h]
  · intro A B t
    exact ⟨compare_fields_missing_length A B t, compare_fields_extra_length A B t⟩

/-- C9 witness: a two-field record is classified `UNKNOWN`, and a four-field
record is classified by its third field. -/
theorem parse_record_degraded_spec_witness :
    (parse_record "a|b".toList).1 = "UNKNOWN".toList ∧
    (parse_record "1|2|P|4".toList).1 = ['P'] := by
  have h := parse_record_degraded_spec
  refine ⟨(h.1 "a|b".toList).2.1 (by decide), ?_⟩
  have h2 := (h.1 "1|2|P|4".toList).2.2 (by decide)
  exact h2.trans (by rfl)

/-- Match count of the field-range loop of `analyze_primary_record`
(`detailed_comparison.py` lines 107-113): positions
`range(start-1, min(end, len(our), len(expected)))` with equal values. -/
def countRangeMatches (lo hi : Nat) (our expected : List FieldVal) : Nat :=
  ((List.range' lo (hi - lo)).filter
    (fun i => decide (our.getD i [] = expected.getD i []))).length

/-- One printed line of the field-range report. -/
structure RangeResult where
  description : String
  start : Nat
  stop : Nat
  range_matches : Nat
  total_range : Nat
  match_pct : ℚ
deriving DecidableEq, Repr

/-- Model of the field-range report loop of `analyze_primary_record`
(`detailed_comparison.py` lines 106-118).  For every `(start, end,
description)` triple it compares positions `start-1 ..
min(end, len(our), len(expected))`, and emits a line with
`match_pct = range_matches / total_range * 100` only when
`total_range > 0`; ranges without overlap produce no line. -/
def analyzeRanges (ranges : List (Nat × Nat × String))
    (our expected : List FieldVal) : List RangeResult :=
  ranges.filterMap fun r =>
    let limit := min r.2.1 (min our.length expected.length)
    let range_matches := countRangeMatches (r.1 - 1) limit our expected
    let total_range := limit - (r.1 - 1)
    if 0 < total_range then
      some ⟨r.2.2, r.1, r.2.1, range_matches, total_range,
            (range_matches : ℚ) / (total_range : ℚ) * 100⟩
    else none

theorem countRangeMatches_le (lo hi : Nat) (our expected : List FieldVal) :
    countRangeMatches lo hi our expected ≤ hi - lo := by
  calc countRangeMatches lo hi our expected
      ≤ (List.range' lo (hi - lo)).length := List.length_filter_le _ _
    _ = hi - lo := by simp

/-- C4 counterexample: the named range `[5,10)` has zero overlap with two
one-field sequences (`total_range = 0`), and the code emits no report line
for it at all — it does not produce a result with percentage 0. -/
theorem analyzeRanges_zero_overlap_counterexample :
    min 10 (min ([['a']] : List FieldVal).length ([['a']] : List FieldVal).length)
        - (5 - 1) = 0 ∧
    analyzeRanges [(5, 10, "X")] [['a']] [['a']] = [] := by
  constructor
  · decide
  · rfl

/-- C4 (amended): the range report compares only positions inside the range
that exist in both sequences; every emitted line has `total_range > 0`,
`range_matches ≤ total_range`, and a percentage
`range_matches / total_range * 100` lying in `[0, 100]`; a range with zero
overlap is skipped — no line is emitted for it (and no division occurs), it
is not reported as 0%. -/
theorem analyzeRanges_spec (ranges : List (Nat × Nat × String))
    (our expected : List FieldVal) :
    (∀ r ∈ analyzeRanges ranges our expected,
        0 < r.total_range ∧
        r.range_matches ≤ r.total_range ∧
        r.match_pct = (r.range_matches : ℚ) / (r.total_range : ℚ) * 100 ∧
        0 ≤ r.match_pct ∧ r.match_pct ≤ 100) ∧
    (∀ s e d, min e (min our.length expected.length) - (s - 1) = 0 →
        analyzeRanges [(s, e, d)] our expected = []) := by
  constructor
  · intro r hr
    rw [analyzeRanges, List.mem_filterMap] at hr
    obtain ⟨w, hw, hsome⟩ := hr
    by_cases hpos :
        0 < min w.2.1 (min our.length expected.length) - (w.1 - 1)
    · rw [if_pos hpos] at hsome
      obtain rfl := Option.some_injective _ hsome
      dsimp only
      refine ⟨hpos, ?_, rfl, ?_, ?_⟩
      · have := countRangeMatches_le (w.1 - 1)
          (min w.2.1 (min our.length expected.length)) our expected
        omega
      · positivity
      · set m := countRangeMatches (w.1 - 1)
          (min w.2.1 (min our.length expected.length)) our expected with hm
        set tr := min w.2.1 (min our.length expected.length) - (w.1 - 1) with htr
        have hle : m ≤ tr := by
          rw [hm, htr]
          have := countRangeMatches_le (w.1 - 1)
            (min w.2.1 (min our.length expected.length)) our expected
          omega
        have hq : (m : ℚ) / (tr : ℚ) ≤ 1 := by
          rw [div_le_one (by exact_mod_cast hpos)]
          exact_mod_cast hle
        calc (m : ℚ) / (tr : ℚ) * 100 ≤ 1 * 100 := by
              exact mul_le_mul_of_nonneg_right hq (by norm_num)
          _ = 100 := by norm_num
    · rw [if_neg hpos] at hsome
      exact absurd hsome (by simp)
  · intro s e d h
    have h2 : ¬ (0 < min e (min our.length expected.length) - (s - 1)) := by omega
    simp [analyzeRanges, h2]
    omega

/-- C4 witness: the range `[1,2)` over two identical one-field sequences is
reported with `total_range = 1` and percentage 100, while the zero-overlap
range `[9,4)` over the same sequences produces no report line. -/
theorem analyzeRanges_spec_witness :
    0 < (RangeResult.mk "H" 1 2 1 1 100).total_range ∧
    0 ≤ (RangeResult.mk "H" 1 2 1 1 100).match_pct ∧
    (RangeResult.mk "H" 1 2 1 1 100).match_pct ≤ 100 ∧
    analyzeRanges [(9, 4, "Z")] [['a']] [['a']] = [] := by
  have h := analyzeRanges_spec [(1, 2, "H")] [['a']] [['a']]
  have hmem : (RangeResult.mk "H" 1 2 1 1 100)
      ∈ analyzeRanges [(1, 2, "H")] [['a']] [['a']] := by
    have : analyzeRanges [(1, 2, "H")] [['a']] [['a']]
        = [RangeResult.mk "H" 1 2 1 1 100] := by
      simp only [analyzeRanges, List.filterMap]
      norm_num [countRangeMatches]
    rw [this]
    exact List.mem_singleton.mpr rfl
  have h1 := h.1 _ hmem
  have h2 := (analyzeRanges_spec [(9, 4, "Z")] [['a']] [['a']]).2 9 4 "Z" (by decide)
  exact ⟨h1.1, h1.2.2.2.1, h1.2.2.2.2, h2⟩

/-- Offsets probed by the shift loop `for offset in range(-3, 4)` with
`offset == 0` skipped (`shift_analysis.py` lines 51-53). -/
def probeOffsets : List Int :=
  ((List.range 7).map (fun k => (k : Int) - 3)).filter (fun o => decide (o ≠ 0))

/-- One probe of the shift loop (`shift_analysis.py` lines 54-57):
`check = first_diff + offset`; a hit when `check` is a valid index into
`expected` and the generated field at `first_diff` equals the expected
field at `check`. -/
def tryOffset (generated expected : List FieldVal) (first_diff : Nat)
    (offset : Int) : Option Int :=
  let check := (first_diff : Int) + offset
  if 0 ≤ check ∧ check < (expected.length : Int) then
    if generated.getD first_diff [] = expected.getD check.toNat []
    then some offset else none
  else none

/-- Model of the alignment probe of `find_shift_point`: the first matching
offset, scanning `-3, -2, -1, 1, 2, 3` in increasing order (the source
prints every matching offset; the first line printed is this value), and
`none` when no offset in the window matches. -/
def detectShift (generated expected : List FieldVal) (first_diff : Nat) :
    Option Int :=
  probeOffsets.findSome? (tryOffset generated expected first_diff)

theorem tryOffset_eq_some_iff (g e : List FieldVal) (d : Nat) (o o2 : Int) :
    tryOffset g e d o = some o2 ↔
      o2 = o ∧ 0 ≤ (d : Int) + o ∧ (d : Int) + o < (e.length : Int) ∧
      g.getD d [] = e.getD ((d : Int) + o).toNat [] := by
  rw [tryOffset]
  split_ifs with h1 h2
  · simp only [Option.some.injEq]
    constructor
    · rintro rfl
      exact ⟨rfl, h1.1, h1.2, h2⟩
    · rintro ⟨rfl, _, _, _⟩
      rfl
  · constructor
    · intro h
      exact h.elim
    · rintro ⟨rfl, _, _, hv⟩
      exact absurd hv h2
  · constructor
    · intro h
      exact h.elim
    · rintro ⟨rfl, hnn, hlt, _⟩
      exact absurd ⟨hnn, hlt⟩ h1

theorem probeOffsets_sorted : probeOffsets.Pairwise (· < ·) := by decide

/-- C5: when the shift probe reports an offset `o`, that offset lies in the
probe window `-3..3` (0 excluded), `d + o` is a valid index into
`expected`, the generated field at `d` equals the expected field at
`d + o`, and no smaller offset of the window matches (the scan is in
increasing order); when it reports nothing, no offset of the window
matches; the spec scenario returns offset `+1`. -/
theorem detectShift_spec (g e : List FieldVal) (d : Nat) (hd : d < g.length) :
    probeOffsets = [-3, -2, -1, 1, 2, 3] ∧
    (∀ o, detectShift g e d = some o →
        o ∈ probeOffsets ∧
        ∃ (h2 : ((d : Int) + o).toNat < e.length),
          0 ≤ (d : Int) + o ∧
          g.get ⟨d, hd⟩ = e.get ⟨((d : Int) + o).toNat, h2⟩ ∧
          ∀ o2 ∈ probeOffsets, o2 < o → tryOffset g e d o2 = none) ∧
    (detectShift g e d = none → ∀ o ∈ probeOffsets, tryOffset g e d o = none) ∧
    detectShift [['1'], ['3'], ['4']] [['1'], ['2'], ['3'], ['4']] 1 = some 1 := by
  refine ⟨by decide, ?_, ?_, by decide⟩
  · intro o ho
    rw [detectShift, List.findSome?_eq_some_iff] at ho
    obtain ⟨l₁, a, l₂, hl, ha, hnone⟩ := ho
    rw [tryOffset_eq_some_iff] at ha
    obtain ⟨rfl, hnn, hlt, hval⟩ := ha
    have hmem : o ∈ probeOffsets := by
      rw [hl]
      simp
    have h2 : ((d : Int) + o).toNat < e.length := by omega
    refine ⟨hmem, h2, hnn, ?_, ?_⟩
    · rw [List.get_eq_getElem, List.get_eq_getElem,
        ← List.getD_eq_getElem g [] hd, ← List.getD_eq_getElem e [] h2]
      exact hval
    · intro o2 ho2 hlt2
      have hsort := probeOffsets_sorted
      rw [hl] at hsort ho2
      rcases List.mem_append.mp ho2 with hin | hin
      · exact hnone o2 hin
      · rcases List.mem_cons.mp hin with rfl | hin
        · omega
        · rw [List.pairwise_append] at hsort
          have := (List.pairwise_cons.mp hsort.2.1).1 o2 hin
          omega
  · intro hnone o ho
    rw [detectShift, List.findSome?_eq_none_iff] at hnone
    exact hnone o ho

/-- C5 witness: the spec scenario `actual = ["1","3","4"]`,
`expected = ["1","2","3","4"]`, first difference at index 1, yields
offset `+1`, an offset of the probe window. -/
theorem detectShift_spec_witness :
    detectShift [['1'], ['3'], ['4']] [['1'], ['2'], ['3'], ['4']] 1 = some 1 ∧
    (1 : Int) ∈ probeOffsets := by
  have h := detectShift_spec [['1'], ['3'], ['4']] [['1'], ['2'], ['3'], ['4']] 1
      (by decide)
  exact ⟨h.2.2.2, (h.2.1 1 h.2.2.2).1⟩

/-- Python byte-slice `data[start:end]` for non-negative bounds
(`field_accuracy_analysis.py` lines 55-56). -/
def sliceBytes (data : List Nat) (start stop : Nat) : List Nat :=
  (data.drop start).take (stop - start)

/-- Byte-for-byte match count up to the shorter buffer:
`sum(1 for i in range(field_length) if actual_field[i] == expected_field[i])`
(`field_accuracy_analysis.py` lines 59-60). -/
def countByteMatches : List Nat → List Nat → Nat
  | a :: xs, b :: ys => (if a = b then 1 else 0) + countByteMatches xs ys
  | _, _ => 0

/-- Per-window entry of the key-field analysis. -/
structure WindowResult where
  description : String
  start : Nat
  stop : Nat
  field_length : Nat
  num_matches : Nat
  accuracy : ℚ
deriving DecidableEq, Repr

/-- Body of the key-field loop (`field_accuracy_analysis.py` lines 54-67):
slice both buffers, compare byte-for-byte up to the shorter slice, and
compute `accuracy = matches / field_length * 100`, 0 when the compared
length is 0. -/
def analyzeWindow (actual expected : List Nat) (w : Nat × Nat × String) :
    WindowResult :=
  let af := sliceBytes actual w.1 w.2.1
  let ef := sliceBytes expected w.1 w.2.1
  let flen := min af.length ef.length
  let m := countByteMatches af ef
  ⟨w.2.2, w.1, w.2.1, flen, m,
    if 0 < flen then (m : ℚ) / (flen : ℚ) * 100 else 0⟩

/-- Model of the key-field loop of `analyze_binary_accuracy`
(`field_accuracy_analysis.py` lines 52-75): a window is processed exactly
when its `start` is within the bounds of both buffers; other windows are
skipped. -/
def windowResults (key_fields : List (Nat × Nat × String))
    (actual expected : List Nat) : List WindowResult :=
  key_fields.filterMap fun w =>
    if w.1 < actual.length ∧ w.1 < expected.length then
      some (analyzeWindow actual expected w)
    else none

/-- Accumulated `total_analyzed` over included windows
(`field_accuracy_analysis.py` line 63). -/
def totalAnalyzed (key_fields : List (Nat × Nat × String))
    (actual expected : List Nat) : Nat :=
  ((windowResults key_fields actual expected).map
    (fun r => r.field_length)).sum

/-- Accumulated `total_matching` over included windows
(`field_accuracy_analysis.py` line 64). -/
def totalMatching (key_fields : List (Nat × Nat × String))
    (actual expected : List Nat) : Nat :=
  ((windowResults key_fields actual expected).map
    (fun r => r.num_matches)).sum

/-- Overall accuracy (`field_accuracy_analysis.py` line 80). -/
def overallAccuracy (key_fields : List (Nat × Nat × String))
    (actual expected : List Nat) : ℚ :=
  if 0 < totalAnalyzed key_fields actual expected then
    (totalMatching key_fields actual expected : ℚ)
      / (totalAnalyzed key_fields actual expected : ℚ) * 100
  else 0

theorem countByteMatches_eq_filter_zip (xs ys : List Nat) :
    countByteMatches xs ys
      = ((xs.zip ys).filter (fun p => decide (p.1 = p.2))).length := by
  induction xs generalizing ys with
  | nil => cases ys <;> simp [countByteMatches]
  | cons a xs ih =>
    cases ys with
    | nil => simp [countByteMatches]
    | cons b ys =>
      by_cases h : a = b
      · simp [countByteMatches, h, ih ys]
        omega
      · simp [countByteMatches, h, ih ys]

theorem countByteMatches_le (xs ys : List Nat) :
    countByteMatches xs ys ≤ min xs.length ys.length := by
  rw [countByteMatches_eq_filter_zip]
  calc ((xs.zip ys).filter (fun p => decide (p.1 = p.2))).length
      ≤ (xs.zip ys).length := List.length_filter_le _ _
    _ = min xs.length ys.length := List.length_zip xs ys

theorem totalMatching_le (key_fields : List (Nat × Nat × String))
    (actual expected : List Nat) :
    totalMatching key_fields actual expected
      ≤ totalAnalyzed key_fields actual expected := by
  rw [totalMatching, totalAnalyzed]
  apply List.sum_le_sum
  intro r hr
  rw [windowResults, List.mem_filterMap] at hr
  obtain ⟨w, hw, hsome⟩ := hr
  by_cases hb : w.1 < actual.length ∧ w.1 < expected.length
  · rw [if_pos hb] at hsome
    obtain rfl := Option.some_injective _ hsome
    simpa [analyzeWindow] using countByteMatches_le _ _
  · rw [if_neg hb] at hsome
    exact absurd hsome (by simp)

/-- C6: a window produces a result exactly when its start is within the
bounds of both buffers (others are skipped); each produced result slices
`[start, min(end, len))` from each buffer, counts byte-for-byte matches up
to the shorter slice (the zip of the two slices), reports
`accuracy = matches / compared * 100` (0 when the compared length is 0),
always within `[0,100]`; and the overall accuracy is the sum of matches
over included windows divided by the sum of compared lengths, times 100. -/
theorem analyze_binary_windows_spec (kf : List (Nat × Nat × String))
    (a e : List Nat) :
    windowResults kf a e
        = (kf.filter (fun w => decide (w.1 < a.length ∧ w.1 < e.length))).map
            (analyzeWindow a e) ∧
    (∀ w : Nat × Nat × String,
        (analyzeWindow a e w).field_length
            = min (min w.2.1 a.length - w.1) (min w.2.1 e.length - w.1) ∧
        (analyzeWindow a e w).num_matches
            = countByteMatches (sliceBytes a w.1 w.2.1)
                (sliceBytes e w.1 w.2.1)) ∧
    (∀ xs ys : List Nat, countByteMatches xs ys
        = ((xs.zip ys).filter (fun p => decide (p.1 = p.2))).length) ∧
    (∀ r ∈ windowResults kf a e,
        r.num_matches ≤ r.field_length ∧
        r.accuracy = (if 0 < r.field_length
            then (r.num_matches : ℚ) / (r.field_length : ℚ) * 100 else 0) ∧
        0 ≤ r.accuracy ∧ r.accuracy ≤ 100) ∧
    overallAccuracy kf a e
        = (totalMatching kf a e : ℚ) / (totalAnalyzed kf a e : ℚ) * 100 := by
  refine ⟨?_, ?_, countByteMatches_eq_filter_zip, ?_, ?_⟩
  · induction kf with
    | nil => simp [windowResults]
    | cons w ws ih =>
      by_cases h : w.1 < a.length ∧ w.1 < e.length
      · simp only [windowResults, List.filterMap_cons, if_pos h] at ih ⊢
        simp [h, ih]
      · simp only [windowResults, List.filterMap_cons, if_neg h] at ih ⊢
        simp [h, ih]
  · intro w
    constructor
    · simp only [analyzeWindow, sliceBytes, List.length_take, List.length_drop]
      omega
    · rfl
  · intro r hr
    rw [windowResults, List.mem_filterMap] at hr
    obtain ⟨w, hw, hsome⟩ := hr
    by_cases hb : w.1 < a.length ∧ w.1 < e.length
    · rw [if_pos hb] at hsome
      obtain rfl := Option.some_injective _ hsome
      have hle : countByteMatches (sliceBytes a w.1 w.2.1)
          (sliceBytes e w.1 w.2.1)
          ≤ min (sliceBytes a w.1 w.2.1).length
              (sliceBytes e w.1 w.2.1).length := countByteMatches_le _ _
      rw [analyzeWindow]
      dsimp only
      refine ⟨hle, rfl, ?_, ?_⟩
      · split_ifs with hpos
        · positivity
        · exact le_refl 0
      · split_ifs with hpos
        · have hq : (countByteMatches (sliceBytes a w.1 w.2.1)
                (sliceBytes e w.1 w.2.1) : ℚ)
              / ((min (sliceBytes a w.1 w.2.1).length
                  (sliceBytes e w.1 w.2.1).length : Nat) : ℚ) ≤ 1 := by
            rw [div_le_one (by exact_mod_cast hpos)]
            exact_mod_cast hle
          calc (countByteMatches (sliceBytes a w.1 w.2.1)
                (sliceBytes e w.1 w.2.1) : ℚ)
              / ((min (sliceBytes a w.1 w.2.1).length
                  (sliceBytes e w.1 w.2.1).length : Nat) : ℚ) * 100
              ≤ 1 * 100 := mul_le_mul_of_nonneg_right hq (by norm_num)
            _ = 100 := by norm_num
        · norm_num
    · rw [if_neg hb] at hsome
      exact absurd hsome (by simp)
  · rw [overallAccuracy]
    split_ifs with h
    · rfl
    · have h0 : totalAnalyzed kf a e = 0 := by omega
      have h1 : totalMatching kf a e = 0 := by
        have := totalMatching_le kf a e
        omega
      rw [h0, h1]
      norm_num

/-- C6 witness: the spec scenario `actual = [1,2,3]`,
`expected = [1,255,3]`, window `(0,3,"W")` yields 2 matches out of 3
compared bytes, with accuracy within bounds. -/
theorem analyze_binary_windows_spec_witness :
    (analyzeWindow [1, 2, 3] [1, 255, 3] (0, 3, "W")).num_matches = 2 ∧
    (analyzeWindow [1, 2, 3] [1, 255, 3] (0, 3, "W")).field_length = 3 ∧
    0 ≤ (analyzeWindow [1, 2, 3] [1, 255, 3] (0, 3, "W")).accuracy ∧
    (analyzeWindow [1, 2, 3] [1, 255, 3] (0, 3, "W")).accuracy ≤ 100 := by
  have h := analyze_binary_windows_spec [(0, 3, "W")] [1, 2, 3] [1, 255, 3]
  have hmem : analyzeWindow [1, 2, 3] [1, 255, 3] (0, 3, "W")
      ∈ windowResults [(0, 3, "W")] [1, 2, 3] [1, 255, 3] := by
    rw [h.1]
    simp
  have h4 := h.2.2.2.1 _ hmem
  exact ⟨by decide, by decide, h4.2.2.1, h4.2.2.2⟩

/-- Record-structure check of `analyze_binary_accuracy`
(`field_accuracy_analysis.py` lines 88-89): derived record count by
integer division, and derived record size guarded against a zero count. -/
def recordStructure (data_len expected_record_size : Nat) : Nat × Nat :=
  let actual_records := data_len / expected_record_size
  (actual_records, if 0 < actual_records then data_len / actual_records else 0)

/-- C7: the record-structure check computes the count by integer division,
reports a derived size of 0 (not a division error) when the count is 0 and
`len / count` otherwise; a 10000-byte buffer with expected record size
2000 yields count 5 and derived size 2000. -/
theorem recordStructure_spec :
    (∀ data_len size : Nat,
        (recordStructure data_len size).1 = data_len / size ∧
        ((recordStructure data_len size).1 = 0 →
            (recordStructure data_len size).2 = 0) ∧
        (0 < (recordStructure data_len size).1 →
            (recordStructure data_len size).2 = data_len / (data_len / size))) ∧
    recordStructure 10000 2000 = (5, 2000) := by
  constructor
  · intro n s
    refine ⟨rfl, ?_, ?_⟩
    · intro h
      have h2 : n / s = 0 := h
      simp [recordStructure, h2]
    · intro h
      have h2 : 0 < n / s := h
      simp [recordStructure, h2]
  · rfl

/-- C7 witness: the implications instantiated at concrete buffers — an
empty buffer gives derived size 0, a 10000-byte buffer with record size
2000 gives derived size 2000. -/
theorem recordStructure_spec_witness :
    (recordStructure 0 2000).2 = 0 ∧ (recordStructure 10000 2000).2 = 2000 := by
  have h := recordStructure_spec
  refine ⟨(h.1 0 2000).2.1 (by decide), ?_⟩
  have h2 := (h.1 10000 2000).2.2 (by decide)
  exact h2.trans (by decide)
